import Mathlib

/-!
Verification of the temporal aggregation / classification core of the
author-visualization code (`main_viz.js` and `sankey.js`).

JS objects keyed by category name are embedded as association lists in
insertion order (`Counts`); year-keyed tables as `YearTable`.  JS numbers
holding counts are `Nat`; metric values that may be the `NaN` sentinel are
`Option ℚ` (`none` = `NaN`); derived ratios (interdisciplinarity, opacity)
are exact rationals `ℚ`.
-/

namespace SciViz

/-- Category-name → count mapping: a JS object in insertion order. -/
abbrev Counts := List (String × Nat)

/-- Year-keyed table: a JS object keyed by (numeric) year. -/
abbrev YearTable := List (Int × Counts)

/-- JS read `m[k] || 0`: value of the first entry with key `k`, default 0. -/
def getCount : Counts → String → Nat
  | [], _ => 0
  | p :: rest, k => if p.1 = k then p.2 else getCount rest k

/-- JS assignment `m[k] = v`: overwrite the entry with key `k`, or append a new one. -/
def setKey : Counts → String → Nat → Counts
  | [], k, v => [(k, v)]
  | p :: rest, k, v => if p.1 = k then (k, v) :: rest else p :: setKey rest k v

/-- JS `m[k] = (m[k] || 0) + v`. -/
def bump (m : Counts) (k : String) (v : Nat) : Counts :=
  setKey m k (getCount m k + v)

/-- Key-wise accumulation of `c` into `m`: the inner loop
`for (const [sf, val] of Object.entries(counts)) running[sf] = (running[sf] || 0) + val`. -/
def addCounts (m c : Counts) : Counts :=
  c.foldl (fun acc p => bump acc p.1 p.2) m

/-- Total of all values attached to key `k` in `c` (coincides with `getCount`
when keys are unique, as they are in a JS object). -/
def keySum : Counts → String → Nat
  | [], _ => 0
  | p :: rest, k => (if p.1 = k then p.2 else 0) + keySum rest k

/-- JS read `table[y] || {}`. -/
def getYear : YearTable → Int → Counts
  | [], _ => []
  | p :: rest, y => if p.1 = y then p.2 else getYear rest y

/-- JS `Math.max(...l)` for a possibly empty list (`none` when empty). -/
def listMax? : List Int → Option Int
  | [] => none
  | x :: xs => some (xs.foldl max x)

/-- Cumulative-snapshot builder: walk the (ascending) year list, keep a running
mapping, and store a copy of it at each year — the `entire` cache construction
of `authorsRaw.forEach`. -/
def entireFrom (table : YearTable) (running : Counts) : List Int → YearTable
  | [] => []
  | y :: ys =>
    (y, addCounts running (getYear table y))
      :: entireFrom table (addCounts running (getYear table y)) ys

/-- `Object.keys(a._cache.year).map(Number).sort((u, v) => u - v)`. -/
def sortedYears (table : YearTable) : List Int :=
  (table.map Prod.fst).insertionSort (fun u v => u ≤ v)

/-- The cumulative `entire` table built from a per-year table. -/
def buildEntire (table : YearTable) : YearTable :=
  entireFrom table [] (sortedYears table)

/-- The per-author cache `a._cache` with its four year-indexed tables. -/
structure AuthorCache where
  year : YearTable
  entire : YearTable
  sankeyYear : YearTable
  sankeyEntire : YearTable
deriving DecidableEq

/-- Cache construction for one author from its per-year subfield table and its
per-year field-pair table. -/
def buildCache (yearly yearlyFields : YearTable) : AuthorCache :=
  ⟨yearly, buildEntire yearly, yearlyFields, buildEntire yearlyFields⟩

/-- Query mode: `'year'` (counts strictly within the year) or `'entire'`
(cumulative up to the year). -/
inductive Mode where
  | year
  | entire
deriving DecidableEq

/-- `countsFor(author, year, mode)`: direct per-year lookup in `'year'` mode;
in `'entire'` mode, the cumulative snapshot at the greatest cached year ≤ the
query year, or the empty mapping when no such year exists. -/
def countsFor (cache : AuthorCache) (year : Int) (mode : Mode) : Counts :=
  match mode with
  | .year => getYear cache.year year
  | .entire =>
    match listMax? ((cache.entire.map Prod.fst).filter (fun y => y ≤ year)) with
    | none => []
    | some m => getYear cache.entire m

/-- Concrete subfield table used by the witnesses: the round-trip example of
the spec (`{2020: {"AI": 3}, 2021: {"AI": 2, "Software": 5}}`). -/
def exTable : YearTable := [(2020, [("AI", 3)]), (2021, [("AI", 2), ("Software", 5)])]

/-- Cache built from the example table. -/
def exCache : AuthorCache := buildCache exTable []

/-- Lexicographic character-sequence comparison: the primitive JS `<` on
strings, written as an executable Boolean function. -/
def ltCharsB : List Char → List Char → Bool
  | _, [] => false
  | [], _ :: _ => true
  | a :: as, b :: bs => if a < b then true else if b < a then false else ltCharsB as bs

/-- JS string comparison `a < b`. -/
def strLtB (a b : String) : Bool := ltCharsB a.data b.data

/-- One step of the `mainSubfieldFor` loop:
`if (n > best.cnt || (n === best.cnt && sf < best.sf)) best = { sf, cnt: n }`. -/
def mainStep (best p : String × Nat) : String × Nat :=
  if best.2 < p.2 ∨ (p.2 = best.2 ∧ strLtB p.1 best.1 = true) then p else best

/-- `mainSubfieldFor(author, year, mode)`: fold the `countsFor` entries
starting from the sentinel `{ sf: "Unknown", cnt: 0 }` and return the name. -/
def mainSubfieldFor (cache : AuthorCache) (year : Int) (mode : Mode) : String :=
  ((countsFor cache year mode).foldl mainStep ("Unknown", 0)).1

/-- Weak "at least as good" preference of the fold: strictly higher count, or
equal count and a name that is lexicographically no larger. -/
def Beats (x y : String × Nat) : Prop :=
  y.2 < x.2 ∨ (y.2 = x.2 ∧ x.1 ≤ y.1)

/-- Concrete author table holding a single explicitly-zero subfield count. -/
def zeroTable : YearTable := [(2020, [("AI", 0)])]

/-- Dominant-subfield characterization: `s` names an entry of maximal count
that is strictly positive, and `s` is lexicographically least among the
entries attaining that maximum. -/
def isDominant (c : Counts) (s : String) : Prop :=
  ∃ p ∈ c, p.1 = s ∧ 0 < p.2 ∧ (∀ q ∈ c, q.2 ≤ p.2) ∧ (∀ q ∈ c, q.2 = p.2 → s ≤ q.1)

/-- `Object.values(counts).map(Number).filter(v => v > 0)`. -/
def posValues (c : Counts) : List Nat :=
  (c.map Prod.snd).filter (fun v => 0 < v)

/-- `1 − Math.max(...values) / d3.sum(values)` over a list of values, `0` when
the list is empty. -/
def interFromValues : List Nat → ℚ
  | [] => 0
  | v :: vs => 1 - ((vs.foldl max v : Nat) : ℚ) / (((v :: vs).sum : Nat) : ℚ)

/-- `interdisciplinarity(author, year, mode)`. -/
def interdisciplinarity (cache : AuthorCache) (year : Int) (mode : Mode) : ℚ :=
  interFromValues (posValues (countsFor cache year mode))

/-- Maximum of a list of naturals, 0 when empty. -/
def natMaxList : List Nat → Nat
  | [] => 0
  | v :: vs => vs.foldl max v

/-- The maximum positive count of a mapping (0 when none). -/
def maxPos (c : Counts) : Nat := natMaxList (posValues c)

/-- The sum of the positive counts of a mapping. -/
def sumPos (c : Counts) : Nat := (posValues c).sum

/-- `countsForFields(author, year, mode)`: direct lookup of the field-pair
table in `'year'` mode; in `'entire'` mode re-aggregate, on every call, the
pair tables of all years ≤ the query year. -/
def countsForFields (yearlyFields : YearTable) (year : Int) (mode : Mode) : Counts :=
  match mode with
  | .year => getYear yearlyFields year
  | .entire =>
    (yearlyFields.filter (fun p => p.1 ≤ year)).foldl (fun agg p => addCounts agg p.2) []

/-- The author record fields used by the classification, metric and filter
code (identity strings, possibly-`NaN` numeric metrics embedded as `Option ℚ`,
the precomputed cache, and the normalized per-year field-pair table). -/
structure Author where
  name : String
  family_name : String
  institution : String
  hindex : Option ℚ
  i10index : Option ℚ
  works_count : Option ℚ
  cited_by_count : Option ℚ
  cache : AuthorCache
  yearly_fields : YearTable
deriving DecidableEq

/-- The `fieldType` selector of `groupInterdisciplinarity`: `'subfield'`
selects the subfield counts, anything else (the code passes `'external'`)
selects the field-pair counts. -/
inductive FieldType where
  | subfield
  | external
deriving DecidableEq

/-- Per-author counts chosen by the `fieldType` selector. -/
def countsByFieldType (a : Author) (year : Int) (mode : Mode) : FieldType → Counts
  | .subfield => countsFor a.cache year mode
  | .external => countsForFields a.yearly_fields year mode

/-- The population-wide `aggCounts` accumulation of `groupInterdisciplinarity`. -/
def groupAgg (authors : List Author) (year : Int) (mode : Mode) (ft : FieldType) : Counts :=
  authors.foldl (fun agg a => addCounts agg (countsByFieldType a year mode ft)) []

/-- `groupInterdisciplinarity(authors, year, mode, fieldType)`: aggregate the
per-author counts first, then apply the `1 − max/sum` formula once. -/
def groupInterdisciplinarity (authors : List Author) (year : Int) (mode : Mode)
    (ft : FieldType) : ℚ :=
  interFromValues (posValues (groupAgg authors year mode ft))

/-- `isActiveBy(author, year, mode)`:
`Object.values(countsFor(...)).some(v => v > 0)`. -/
def isActiveBy (cache : AuthorCache) (year : Int) (mode : Mode) : Bool :=
  (countsFor cache year mode).any (fun p => 0 < p.2)

/-- JS `Set.add`: append when not already present (insertion order kept). -/
def insertSet (s : List String) (x : String) : List String :=
  if x ∈ s then s else s ++ [x]

/-- The `present` set of `computeVisibleSubfields`: every subfield holding a
strictly positive `countsFor` count for some author of the filtered set. -/
def presentSubfields (authors : List Author) (year : Int) (mode : Mode) : List String :=
  authors.foldl
    (fun s a =>
      (countsFor a.cache year mode).foldl
        (fun s2 p => if 0 < p.2 then insertSet s2 p.1 else s2) s)
    []

/-- `computeVisibleSubfields(year)`: `Array.from(present).sort()`. -/
def computeVisibleSubfields (authors : List Author) (year : Int) (mode : Mode) :
    List String :=
  (presentSubfields authors year mode).insertionSort (fun a b => a ≤ b)

/-- The fallback of `setYear`:
`if (visibleSubfields.length === 0) visibleSubfields.push("Unknown")`. -/
def visibleWithFallback (authors : List Author) (year : Int) (mode : Mode) :
    List String :=
  if computeVisibleSubfields authors year mode = [] then ["Unknown"]
  else computeVisibleSubfields authors year mode

/-- A cluster center record `{x, y, angle}`. -/
structure Center (β : Type) where
  x : β
  y : β
  angle : β
deriving DecidableEq

/-- First-match association-list lookup: `Map.get`. -/
def lookupKey {β : Type} : List (String × β) → String → Option β
  | [], _ => none
  | p :: rest, k => if p.1 = k then some p.2 else lookupKey rest k

/-- The angle of slot `i` of `N`: `(i / N) * 2π − π/2`. -/
noncomputable def slotAngle (i N : Nat) : ℝ :=
  ((i : ℝ) / (N : ℝ)) * (2 * Real.pi) - Real.pi / 2

/-- The `clusterCenterMap` built in `setYear`: each visible subfield (with the
`"Unknown"` fallback), in order, mapped to the point at angle `slotAngle i N`
on the circle of radius `r` around `(cx, cy)`.  The fixed center coordinates
and radius (`centerX`, `centerY`, `Math.min(innerW, innerH) * 0.35`) depend on
layout constants imported from outside the embedded core, so they are
parameters here. -/
noncomputable def clusterCenterMap (cx cy r : ℝ) (authors : List Author)
    (year : Int) (mode : Mode) : List (String × Center ℝ) :=
  (visibleWithFallback authors year mode).enum.map
    (fun p =>
      (p.2,
        ⟨cx + r * Real.cos (slotAngle p.1 (visibleWithFallback authors year mode).length),
         cy + r * Real.sin (slotAngle p.1 (visibleWithFallback authors year mode).length),
         slotAngle p.1 (visibleWithFallback authors year mode).length⟩))

/-- A phantom edge `{parent, subfield, count, tx, ty}`; the node is identified
with its author record, and the coordinate type of the cluster centers it
copies is a parameter. -/
structure Phantom (β : Type) where
  parent : Author
  subfield : String
  count : Nat
  tx : β
  ty : β
deriving DecidableEq

/-- Inner loop of `computePhantomsForYear` for one node: skip inactive nodes;
emit one edge per strictly positive, non-dominant category that has a cluster
center, copying the center's coordinates. -/
def phantomsForNode {β : Type} (centers : List (String × Center β)) (year : Int)
    (mode : Mode) (n : Author) : List (Phantom β) :=
  if isActiveBy n.cache year mode then
    (countsFor n.cache year mode).filterMap
      (fun p =>
        if 0 < p.2 ∧ p.1 ≠ mainSubfieldFor n.cache year mode then
          match lookupKey centers p.1 with
          | some c => some ⟨n, p.1, p.2, c.x, c.y⟩
          | none => none
        else none)
  else []

/-- `computePhantomsForYear(year)` over the current nodes and cluster centers. -/
def computePhantomsForYear {β : Type} (nodes : List Author)
    (centers : List (String × Center β)) (year : Int) (mode : Mode) :
    List (Phantom β) :=
  nodes.flatMap (phantomsForNode centers year mode)

/-- Table, author and centers used by the phantom witnesses. -/
def phTable : YearTable := [(2020, [("AI", 3), ("Software", 1)])]

def phAuthor : Author :=
  ⟨"Grace Hopper", "Hopper", "Yale", some 1, some 1, some 1, some 1,
    buildCache phTable [], []⟩

def phCenters : List (String × Center ℚ) :=
  [("AI", ⟨0, 0, 0⟩), ("Software", ⟨1, 2, 0⟩)]

/-- `maxCount` of `updatePhantoms`: `counts.length ? d3.max(counts) : 1`. -/
def maxCountOf {β : Type} (phantoms : List (Phantom β)) : Nat :=
  match phantoms.map (fun e => e.count) with
  | [] => 1
  | c :: cs => cs.foldl max c

/-- `opacityScale = d3.scaleLinear().domain([0, maxCount]).range([0.01, 0.30])`
applied to a count: the affine map `0.01 + (c / maxCount) * (0.30 − 0.01)`. -/
def opacityFor {β : Type} (phantoms : List (Phantom β)) (c : Nat) : ℚ :=
  1 / 100 + ((c : ℚ) / (maxCountOf phantoms : ℚ)) * (30 / 100 - 1 / 100)

/-- The per-author pair mapping chosen in `updateSankey`: in `'year'` mode the
year's entry of the precomputed `sankeyYear` cache; in `'entire'` mode the
cumulative `sankeyEntire` snapshot at the greatest cached year ≤ the current
year, empty when none exists. -/
def sankeyPairsFor (a : Author) (year : Int) (mode : Mode) : Counts :=
  match mode with
  | .year => getYear a.cache.sankeyYear year
  | .entire =>
    match listMax? ((a.cache.sankeyEntire.map Prod.fst).filter (fun y => y ≤ year)) with
    | none => []
    | some yy => getYear a.cache.sankeyEntire yy

/-- `pairTotals`: sum every author's strictly positive pair counts into one
population-wide map (`pairTotals.set(pair, (pairTotals.get(pair) || 0) + v)`,
skipping `v <= 0`). -/
def pairTotals (authors : List Author) (year : Int) (mode : Mode) : Counts :=
  authors.foldl
    (fun m a =>
      (sankeyPairsFor a year mode).foldl
        (fun m2 p => if 0 < p.2 then bump m2 p.1 p.2 else m2) m)
    []

/-- Split off the text before the first `"---"` and the remainder after it;
`none` when the delimiter does not occur. -/
def breakOnSep : List Char → Option (List Char × List Char)
  | '-' :: '-' :: '-' :: rest => some ([], rest)
  | c :: rest =>
    match breakOnSep rest with
    | some (pre, post) => some (c :: pre, post)
    | none => none
  | [] => none

/-- Fuel-bounded iteration of `breakOnSep`; with fuel = length this is
`String.split('---')` on the character sequence (each delimiter consumes three
characters, so the fuel never runs out first). -/
def splitSepFuel : Nat → List Char → List (List Char)
  | 0, s => [s]
  | fuel + 1, s =>
    match breakOnSep s with
    | none => [s]
    | some (pre, post) => pre :: splitSepFuel fuel post

/-- `String(pair).split('---')`. -/
def splitSep (s : List Char) : List (List Char) := splitSepFuel s.length s

/-- The first two parts (`parts[0]`, `parts[1]`), when at least two exist. -/
def headTwo {α : Type} : List α → Option (α × α)
  | a :: b :: _ => some (a, b)
  | _ => none

/-- The bipartite weighted graph handed to the flow-layout primitive. -/
structure SankeyGraph where
  nodes : List String
  links : List (String × String × Nat)
deriving DecidableEq

/-- The explicitly empty graph (everything cleared). -/
def emptyGraph : SankeyGraph := ⟨[], []⟩

/-- The link-building loop of `updateSankey`: one link per aggregated pair
whose key splits into at least two parts; keys with fewer parts are dropped. -/
def linksOf (totals : Counts) : List (String × String × Nat) :=
  totals.filterMap
    (fun p =>
      match headTwo (splitSep p.1.data) with
      | some (s, f) => some (String.mk s, String.mk f, p.2)
      | none => none)

/-- The node set: the subfield then the field of each surviving link, added in
order to a JS `Set`. -/
def nodesOf (links : List (String × String × Nat)) : List String :=
  links.foldl (fun s l => insertSet (insertSet s l.1) l.2.1) []

/-- The data part of `updateSankey`: the empty graph when no aggregated pairs
or no well-formed links exist, otherwise the node list and weighted links. -/
def updateSankey (authors : List Author) (year : Int) (mode : Mode) : SankeyGraph :=
  let totals := pairTotals authors year mode
  if totals = [] then emptyGraph
  else
    let links := linksOf totals
    if links = [] then emptyGraph
    else ⟨nodesOf links, links⟩

/-- Author used by the flow-aggregation witness: its per-year pair table holds
`{"AI---CS": 5, "Software---CS": 3}` in 2020. -/
def skAuthor : Author :=
  ⟨"", "", "", none, none, none, none,
    buildCache [] [(2020, [("AI---CS", 5), ("Software---CS", 3)])],
    [(2020, [("AI---CS", 5), ("Software---CS", 3)])]⟩

/-- JS `a >= b` where either operand may be the `NaN` sentinel (`none`): any
comparison involving `NaN` is false. -/
def jsGE : Option ℚ → Option ℚ → Bool
  | some a, some b => decide (b ≤ a)
  | _, _ => false

/-- JS `a <= b` with the `NaN` sentinel. -/
def jsLE : Option ℚ → Option ℚ → Bool
  | some a, some b => decide (a ≤ b)
  | _, _ => false

/-- JS strict equality `a === b` on numbers; `NaN === x` is false. -/
def jsEQ : Option ℚ → Option ℚ → Bool
  | some a, some b => decide (a = b)
  | _, _ => false

/-- The operator selector of a numeric filter row. -/
inductive NumOp where
  | ge
  | eq
  | le
deriving DecidableEq

/-- One numeric check of `applyFilters`: an empty input (`none`) is skipped;
otherwise the author's value must satisfy the comparison against the parsed
threshold (either side being `NaN` fails it). -/
def numericCheck (op : NumOp) (val : Option ℚ) (numStr : Option (Option ℚ)) : Bool :=
  match numStr with
  | none => true
  | some num =>
    match op with
    | .ge => jsGE val num
    | .le => jsLE val num
    | .eq => jsEQ val num

/-- `s.toLowerCase()`. -/
def toLowerStr (s : String) : String := String.mk (s.data.map Char.toLower)

/-- `hay.toLowerCase().includes(sub)` (the `sub` strings below are stored
already trimmed and lower-cased, as `applyFilters` reads them). -/
def strContains (hay sub : String) : Bool :=
  decide (sub.data <:+: (toLowerStr hay).data)

/-- The filter inputs read from the UI: trimmed lower-cased substrings, and
for each numeric row an operator and `none` = empty input, `some none` =
non-numeric input (`Number(...)` = `NaN`), `some (some q)` = the threshold. -/
structure FilterSettings where
  nameSub : String
  surnameSub : String
  instSub : String
  hOp : NumOp
  hNum : Option (Option ℚ)
  i10Op : NumOp
  i10Num : Option (Option ℚ)
  worksOp : NumOp
  worksNum : Option (Option ℚ)
  citedOp : NumOp
  citedNum : Option (Option ℚ)
deriving DecidableEq

/-- The per-author predicate of `applyFilters`. -/
def authorPasses (s : FilterSettings) (a : Author) : Bool :=
  if s.nameSub ≠ "" ∧ ¬ strContains a.name s.nameSub then false
  else if s.surnameSub ≠ "" ∧ ¬ strContains a.family_name s.surnameSub then false
  else if s.instSub ≠ "" ∧ ¬ strContains a.institution s.instSub then false
  else
    numericCheck s.hOp a.hindex s.hNum
    && numericCheck s.i10Op a.i10index s.i10Num
    && numericCheck s.worksOp a.works_count s.worksNum
    && numericCheck s.citedOp a.cited_by_count s.citedNum

/-- `applyFilters`: `filteredAuthors = authorsRaw.filter(...)`. -/
def applyFilters (s : FilterSettings) (authors : List Author) : List Author :=
  authors.filter (fun a => authorPasses s a)

/-- Author with a `NaN` h-index used by the filter witness. -/
def nanAuthor : Author :=
  ⟨"John", "Doe", "MIT", none, some 1, some 1, some 1, buildCache [] [], []⟩

/-- Filter settings asking for h-index ≥ 0 and nothing else. -/
def exFilter : FilterSettings :=
  ⟨"", "", "", NumOp.ge, some (some 0), NumOp.ge, none, NumOp.ge, none,
    NumOp.ge, none⟩

theorem getCount_setKey (m : Counts) (k : String) (v : Nat) (c : String) :
    getCount (setKey m k v) c = if k = c then v else getCount m c := by
  induction m with
  | nil => simp [setKey, getCount]
  | cons p rest ih =>
    simp only [setKey]
    by_cases h : p.1 = k
    · subst h
      simp only [if_pos rfl]
      by_cases h2 : p.1 = c <;> simp [getCount, h2]
    · simp only [if_neg h]
      by_cases h2 : p.1 = c
      · have hkc : ¬ k = c := fun hc => h (by rw [h2, hc])
        simp [getCount, h2, hkc]
      · simp [getCount, h2, ih]

theorem getCount_bump (m : Counts) (k : String) (v : Nat) (c : String) :
    getCount (bump m k v) c = getCount m c + if k = c then v else 0 := by
  unfold bump
  rw [getCount_setKey]
  by_cases h : k = c
  · simp [h]
  · simp [h]

theorem getCount_addCounts (m c : Counts) (x : String) :
    getCount (addCounts m c) x = getCount m x + keySum c x := by
  induction c generalizing m with
  | nil => simp [addCounts, keySum]
  | cons p rest ih =>
    show getCount (addCounts (bump m p.1 p.2) rest) x = _
    rw [ih, getCount_bump]
    simp [keySum]
    omega

theorem getCount_eq_zero_of_not_mem (m : Counts) (k : String)
    (h : k ∉ m.map Prod.fst) : getCount m k = 0 := by
  induction m with
  | nil => rfl
  | cons p rest ih =>
    simp only [List.map_cons, List.mem_cons] at h
    push_neg at h
    have : p.1 ≠ k := fun hk => h.1 hk.symm
    simp [getCount, this, ih h.2]

theorem keySum_eq_zero_of_not_mem (c : Counts) (k : String)
    (h : k ∉ c.map Prod.fst) : keySum c k = 0 := by
  induction c with
  | nil => rfl
  | cons p rest ih =>
    simp only [List.map_cons, List.mem_cons] at h
    push_neg at h
    have : p.1 ≠ k := fun hk => h.1 hk.symm
    simp [keySum, this, ih h.2]

theorem keySum_eq_getCount (c : Counts) (k : String)
    (h : (c.map Prod.fst).Nodup) : keySum c k = getCount c k := by
  induction c with
  | nil => rfl
  | cons p rest ih =>
    simp only [List.map_cons, List.nodup_cons] at h
    by_cases hk : p.1 = k
    · have : keySum rest k = 0 := keySum_eq_zero_of_not_mem rest k (hk ▸ h.1)
      simp [keySum, getCount, hk, this]
    · simp [keySum, getCount, hk, ih h.2]

theorem getYear_mem (t : YearTable) (y : Int) (h : y ∈ t.map Prod.fst) :
    (y, getYear t y) ∈ t := by
  induction t with
  | nil => simp at h
  | cons p rest ih =>
    simp only [List.map_cons, List.mem_cons] at h
    by_cases hy : p.1 = y
    · have h2 : getYear (p :: rest) y = p.2 := by simp [getYear, hy]
      rw [h2, ← hy]
      exact List.mem_cons_self p rest
    · right
      rcases h with h | h
      · exact absurd h.symm hy
      · simpa [getYear, hy] using ih h

theorem foldl_max_le {α : Type} [LinearOrder α] (xs : List α) (x : α) :
    x ≤ xs.foldl max x := by
  induction xs generalizing x with
  | nil => exact le_refl x
  | cons a rest ih => exact le_trans (le_max_left x a) (ih (max x a))

theorem foldl_max_mem {α : Type} [LinearOrder α] (xs : List α) (x : α) :
    xs.foldl max x = x ∨ xs.foldl max x ∈ xs := by
  induction xs generalizing x with
  | nil => exact Or.inl rfl
  | cons a rest ih =>
    rw [List.foldl_cons]
    rcases ih (max x a) with h | h
    · rw [h]
      rcases max_choice x a with hm | hm
      · exact Or.inl hm
      · right
        rw [hm]
        exact List.mem_cons_self a rest
    · exact Or.inr (List.mem_cons_of_mem a h)

theorem le_foldl_max_of_mem {α : Type} [LinearOrder α] (xs : List α) (x y : α)
    (h : y ∈ xs) : y ≤ xs.foldl max x := by
  induction xs generalizing x with
  | nil => simp at h
  | cons a rest ih =>
    rw [List.foldl_cons]
    rcases List.mem_cons.mp h with h | h
    · subst h
      exact le_trans (le_max_right x y) (foldl_max_le rest (max x y))
    · exact ih (max x a) h

theorem listMax?_spec (l : List Int) (m : Int) (h : listMax? l = some m) :
    m ∈ l ∧ ∀ y ∈ l, y ≤ m := by
  cases l with
  | nil => simp [listMax?] at h
  | cons x xs =>
    simp only [listMax?, Option.some_inj] at h
    subst h
    constructor
    · rcases foldl_max_mem xs x with h | h
      · rw [h]
        exact List.mem_cons_self x xs
      · exact List.mem_cons_of_mem x h
    · intro y hy
      rcases List.mem_cons.mp hy with hy | hy
      · exact hy ▸ foldl_max_le xs x
      · exact le_foldl_max_of_mem xs x y hy

theorem sum_map_congr {α : Type} (l : List α) (f g : α → Nat)
    (h : ∀ a ∈ l, f a = g a) : (l.map f).sum = (l.map g).sum := by
  induction l with
  | nil => rfl
  | cons a rest ih =>
    simp only [List.map_cons, List.sum_cons]
    rw [h a (List.mem_cons_self a rest),
      ih (fun b hb => h b (List.mem_cons_of_mem a hb))]

theorem listMax?_eq_none (l : List Int) : listMax? l = none ↔ l = [] := by
  cases l <;> simp [listMax?]

theorem entireFrom_map_fst (table : YearTable) (r : Counts) (ys : List Int) :
    (entireFrom table r ys).map Prod.fst = ys := by
  induction ys generalizing r with
  | nil => rfl
  | cons y rest ih => simp [entireFrom, ih]

/-- The cumulative snapshot stored at a year `y` of the (strictly ascending)
year list equals the running mapping plus the sum of the per-year tables over
all listed years `≤ y`. -/
theorem getCount_entireFrom (table : YearTable) (C : String) (ys : List Int)
    (hlt : ys.Pairwise (fun u v => u < v)) (r : Counts) (y : Int) (hy : y ∈ ys) :
    getCount (getYear (entireFrom table r ys) y) C
      = getCount r C
        + ((ys.filter (fun z => z ≤ y)).map (fun z => keySum (getYear table z) C)).sum := by
  induction ys generalizing r with
  | nil => simp at hy
  | cons y0 rest ih =>
    rw [List.pairwise_cons] at hlt
    by_cases h0 : y0 = y
    · subst h0
      have hrest : rest.filter (fun z => decide (z ≤ y0)) = [] := by
        rw [List.filter_eq_nil_iff]
        intro z hz
        simp only [decide_eq_true_eq, not_le]
        exact hlt.1 z hz
      simp only [entireFrom, getYear, if_pos rfl, List.filter_cons,
        decide_eq_true_eq, le_refl, if_pos, hrest, List.map_cons, List.map_nil,
        List.sum_cons, List.sum_nil]
      rw [getCount_addCounts]
      omega
    · have hyr : y ∈ rest := by
        rcases List.mem_cons.mp hy with h | h
        · exact absurd h.symm h0
        · exact h
      have hy0y : y0 < y := hlt.1 y hyr
      have step : getYear (entireFrom table r (y0 :: rest)) y
          = getYear (entireFrom table (addCounts r (getYear table y0)) rest) y := by
        simp [entireFrom, getYear, h0]
      rw [step, ih hlt.2 (addCounts r (getYear table y0)) hyr]
      rw [getCount_addCounts]
      have hfc : (y0 :: rest).filter (fun z => decide (z ≤ y)) =
          y0 :: rest.filter (fun z => decide (z ≤ y)) := by
        rw [List.filter_cons]
        simp [le_of_lt hy0y]
      rw [hfc]
      simp only [List.map_cons, List.sum_cons]
      omega

/-- Claim C1: the `entire`-mode result of `countsFor` at any year `Y` maps each
category `C` to the sum of the `year`-mode counts of `C` over all years `≤ Y`
present in the author's subfield table (equivalently, the cached cumulative
lookup at the greatest cached year `≤ Y`, empty when no such year exists,
agrees with the prefix sum of the per-year tables).  The hypotheses state that
the JS objects being embedded have unique year keys and unique category keys. -/
theorem countsFor_entire_prefix_sum (yearly yearlyFields : YearTable)
    (hkeys : (yearly.map Prod.fst).Nodup)
    (hinner : ∀ p ∈ yearly, (p.2.map Prod.fst).Nodup)
    (Y : Int) (C : String) :
    getCount (countsFor (buildCache yearly yearlyFields) Y Mode.entire) C
      = (((yearly.map Prod.fst).filter (fun y => y ≤ Y)).map
          (fun y => getCount (countsFor (buildCache yearly yearlyFields) y Mode.year) C)).sum := by
  have hyear : ∀ y : Int,
      countsFor (buildCache yearly yearlyFields) y Mode.year = getYear yearly y :=
    fun _ => rfl
  have hperm : (sortedYears yearly).Perm (yearly.map Prod.fst) :=
    List.perm_insertionSort _ _
  have hnd : (sortedYears yearly).Nodup := hperm.nodup_iff.mpr hkeys
  have hsorted : (sortedYears yearly).Sorted (fun u v => u ≤ v) :=
    List.sorted_insertionSort _ _
  have hlt : (sortedYears yearly).Pairwise (fun u v => u < v) :=
    hsorted.lt_of_le hnd
  have hfst : (buildEntire yearly).map Prod.fst = sortedYears yearly :=
    entireFrom_map_fst _ _ _
  show getCount
      (match listMax? (((buildEntire yearly).map Prod.fst).filter (fun y => y ≤ Y)) with
        | none => []
        | some m => getYear (buildEntire yearly) m) C = _
  rw [hfst]
  cases hM : listMax? ((sortedYears yearly).filter (fun y => decide (y ≤ Y))) with
  | none =>
    have hnil : (sortedYears yearly).filter (fun y => decide (y ≤ Y)) = [] :=
      (listMax?_eq_none _).mp hM
    have : (yearly.map Prod.fst).filter (fun y => decide (y ≤ Y)) = [] :=
      (hperm.filter _).symm.trans (hnil ▸ List.Perm.refl _) |>.eq_nil
    rw [this]
    rfl
  | some m =>
    rcases listMax?_spec _ _ hM with ⟨hmem, hub⟩
    have hmys : m ∈ sortedYears yearly := (List.mem_filter.mp hmem).1
    have hmY : m ≤ Y := by
      have := (List.mem_filter.mp hmem).2
      simpa using this
    show getCount (getYear (buildEntire yearly) m) C = _
    unfold buildEntire
    rw [getCount_entireFrom yearly C (sortedYears yearly) hlt [] m hmys]
    have hfilter_eq : (sortedYears yearly).filter (fun z => decide (z ≤ m))
        = (sortedYears yearly).filter (fun z => decide (z ≤ Y)) := by
      apply List.filter_congr
      intro z hz
      apply decide_eq_decide.mpr
      constructor
      · exact fun h => le_trans h hmY
      · intro h
        exact hub z (List.mem_filter.mpr ⟨hz, by simpa using h⟩)
    rw [hfilter_eq]
    have hpermf : ((sortedYears yearly).filter (fun z => decide (z ≤ Y))).Perm
        ((yearly.map Prod.fst).filter (fun z => decide (z ≤ Y))) := hperm.filter _
    have hpermsum := (hpermf.map (fun z => keySum (getYear yearly z) C)).sum_eq
    rw [show getCount ([] : Counts) C = 0 from rfl, Nat.zero_add, hpermsum]
    apply sum_map_congr
    intro y hyf
    have hyk : y ∈ yearly.map Prod.fst := (List.mem_filter.mp hyf).1
    have hmemy : (y, getYear yearly y) ∈ yearly := getYear_mem yearly y hyk
    rw [hyear y]
    exact keySum_eq_getCount _ _ (hinner _ hmemy)

/-- Witness for C1: the prefix-sum equality evaluated on the spec's round-trip
example at year 2021 and category `"AI"`. -/
theorem countsFor_entire_prefix_sum_witness :
    getCount (countsFor (buildCache exTable []) 2021 Mode.entire) "AI"
      = (((exTable.map Prod.fst).filter (fun y => y ≤ (2021 : Int))).map
          (fun y => getCount (countsFor (buildCache exTable []) y Mode.year) "AI")).sum :=
  countsFor_entire_prefix_sum exTable [] (by decide) (by decide) 2021 "AI"

theorem ltCharsB_iff_lex (as bs : List Char) :
    ltCharsB as bs = true ↔ List.Lex (fun u v => u < v) as bs := by
  induction as generalizing bs with
  | nil =>
    cases bs with
    | nil =>
      constructor
      · intro h
        simp [ltCharsB] at h
      · intro h
        cases h
    | cons b bs =>
      constructor
      · intro _
        exact List.Lex.nil
      · intro _
        rfl
  | cons a as ih =>
    cases bs with
    | nil =>
      constructor
      · intro h
        simp [ltCharsB] at h
      · intro h
        cases h
    | cons b bs =>
      rw [show ltCharsB (a :: as) (b :: bs)
          = if a < b then true else if b < a then false else ltCharsB as bs from rfl]
      by_cases h1 : a < b
      · rw [if_pos h1]
        exact ⟨fun _ => List.Lex.rel h1, fun _ => rfl⟩
      · rw [if_neg h1]
        by_cases h2 : b < a
        · rw [if_pos h2]
          constructor
          · intro h
            simp at h
          · intro h
            cases h with
            | cons h3 => exact absurd h2 (lt_irrefl a)
            | rel h3 => exact absurd h3 h1
        · rw [if_neg h2]
          have hab : a = b := le_antisymm (not_lt.mp h2) (not_lt.mp h1)
          subst hab
          constructor
          · intro h
            exact List.Lex.cons ((ih bs).mp h)
          · intro h
            cases h with
            | cons h3 => exact (ih bs).mpr h3
            | rel h3 => exact absurd h3 (lt_irrefl a)

theorem strLtB_iff (a b : String) : strLtB a b = true ↔ a < b := by
  rw [String.lt_iff_toList_lt]
  exact ltCharsB_iff_lex a.data b.data

theorem strLtB_eq_false_iff (a b : String) : strLtB a b = false ↔ ¬ a < b := by
  rw [← strLtB_iff]
  cases strLtB a b <;> simp

theorem beats_refl (x : String × Nat) : Beats x x :=
  Or.inr ⟨rfl, le_refl _⟩

theorem beats_trans {x y z : String × Nat} (h1 : Beats x y) (h2 : Beats y z) :
    Beats x z := by
  rcases h1 with h1 | ⟨h1e, h1n⟩
  · rcases h2 with h2 | ⟨h2e, h2n⟩
    · exact Or.inl (lt_trans h2 h1)
    · exact Or.inl (h2e ▸ h1)
  · rcases h2 with h2 | ⟨h2e, h2n⟩
    · exact Or.inl (h1e ▸ h2)
    · exact Or.inr ⟨h2e.trans h1e, le_trans h1n h2n⟩

theorem mainStep_eq_or (b p : String × Nat) : mainStep b p = b ∨ mainStep b p = p := by
  unfold mainStep
  split
  · exact Or.inr rfl
  · exact Or.inl rfl

theorem beats_mainStep_left (b p : String × Nat) : Beats (mainStep b p) b := by
  unfold mainStep
  split
  · next h =>
    rcases h with h | ⟨he, hn⟩
    · exact Or.inl h
    · exact Or.inr ⟨he.symm, le_of_lt ((strLtB_iff _ _).mp hn)⟩
  · exact beats_refl b

theorem beats_mainStep_right (b p : String × Nat) : Beats (mainStep b p) p := by
  unfold mainStep
  split
  · exact beats_refl p
  · next h =>
    push_neg at h
    rcases lt_or_eq_of_le h.1 with hlt | heq
    · exact Or.inl hlt
    · refine Or.inr ⟨heq, ?_⟩
      have hne := h.2 heq
      have hf : strLtB p.1 b.1 = false := by
        cases hb : strLtB p.1 b.1
        · rfl
        · exact absurd hb hne
      exact not_lt.mp ((strLtB_eq_false_iff p.1 b.1).mp hf)

theorem foldl_mainStep_spec (c : Counts) (b : String × Nat) :
    (c.foldl mainStep b = b ∨ c.foldl mainStep b ∈ c)
    ∧ Beats (c.foldl mainStep b) b
    ∧ ∀ p ∈ c, Beats (c.foldl mainStep b) p := by
  induction c generalizing b with
  | nil =>
    refine ⟨Or.inl rfl, beats_refl b, ?_⟩
    intro p hp
    simp at hp
  | cons q rest ih =>
    obtain ⟨hmem, hb, hall⟩ := ih (mainStep b q)
    rw [List.foldl_cons]
    refine ⟨?_, ?_, ?_⟩
    · rcases hmem with h | h
      · rcases mainStep_eq_or b q with h2 | h2
        · exact Or.inl (h.trans h2)
        · right
          rw [h, h2]
          exact List.mem_cons_self q rest
      · exact Or.inr (List.mem_cons_of_mem q h)
    · exact beats_trans hb (beats_mainStep_left b q)
    · intro p hp
      rcases List.mem_cons.mp hp with h | h
      · subst h
        exact beats_trans hb (beats_mainStep_right b p)
      · exact hall p h

theorem foldl_mainStep_zero (c : Counts) (hz : ∀ p ∈ c, p.2 = 0) (b : String) :
    c.foldl mainStep (b, 0) = ((c.map Prod.fst).foldl min b, 0) := by
  induction c generalizing b with
  | nil => rfl
  | cons q rest ih =>
    obtain ⟨qs, qn⟩ := q
    have hq : qn = 0 := hz (qs, qn) (List.mem_cons_self _ rest)
    subst hq
    have hstep : mainStep (b, 0) (qs, 0) = (min b qs, 0) := by
      by_cases h : qs < b
      · have ht : strLtB qs b = true := (strLtB_iff qs b).mpr h
        simp [mainStep, ht, min_eq_right (le_of_lt h)]
      · have hf : strLtB qs b = false := (strLtB_eq_false_iff qs b).mpr h
        simp [mainStep, hf, min_eq_left (not_lt.mp h)]
    rw [List.foldl_cons, hstep,
      ih (fun p hp => hz p (List.mem_cons_of_mem _ hp)) (min b qs)]
    simp

/-- Counterexample to claim C2 as stated: for this author at year 2020 in
`'year'` mode every count in the `countsFor` mapping is zero, yet
`mainSubfieldFor` returns `"AI"` rather than the sentinel `"Unknown"`,
because the fold's tie-break also compares zero-count entries against the
sentinel name. -/
theorem mainSubfieldFor_zero_cex :
    (∀ p ∈ countsFor (buildCache zeroTable []) 2020 Mode.year, p.2 = 0)
    ∧ mainSubfieldFor (buildCache zeroTable []) 2020 Mode.year = "AI"
    ∧ "AI" ≠ "Unknown" := by
  refine ⟨?_, ?_, ?_⟩ <;> decide

/-- Claim C2 (amended): whenever some count of `countsFor` is strictly
positive, `mainSubfieldFor` returns the category of maximum count, ties broken
by the lexicographically smallest name; when every count is zero (or the
mapping is empty) it returns the lexicographic minimum of `"Unknown"` and the
listed category names — hence `"Unknown"` for an empty mapping, but not
necessarily for an all-zero one. -/
theorem mainSubfieldFor_spec (cache : AuthorCache) (year : Int) (mode : Mode) :
    ((∃ p ∈ countsFor cache year mode, 0 < p.2) →
      isDominant (countsFor cache year mode) (mainSubfieldFor cache year mode))
    ∧ ((∀ p ∈ countsFor cache year mode, p.2 = 0) →
      mainSubfieldFor cache year mode
        = ((countsFor cache year mode).map Prod.fst).foldl min "Unknown") := by
  constructor
  · rintro ⟨p, hp, hpos⟩
    obtain ⟨hmem, hinit, hall⟩ := foldl_mainStep_spec (countsFor cache year mode) ("Unknown", 0)
    have hrpos : 0 < ((countsFor cache year mode).foldl mainStep ("Unknown", 0)).2 := by
      rcases hall p hp with h | h
      · exact lt_trans hpos h
      · exact h.1 ▸ hpos
    have hrmem : (countsFor cache year mode).foldl mainStep ("Unknown", 0)
        ∈ countsFor cache year mode := by
      rcases hmem with h | h
      · rw [h] at hrpos
        simp at hrpos
      · exact h
    refine ⟨_, hrmem, rfl, hrpos, ?_, ?_⟩
    · intro q hq
      rcases hall q hq with h | h
      · exact le_of_lt h
      · exact le_of_eq h.1
    · intro q hq he
      rcases hall q hq with h | h
      · exact absurd he (ne_of_lt h)
      · exact h.2
  · intro hz
    unfold mainSubfieldFor
    rw [foldl_mainStep_zero _ hz "Unknown"]

/-- Witness for the amended C2: on the spec's round-trip example in `'entire'`
mode at 2021 the counts are `{AI: 5, Software: 5}`, and the returned dominant
subfield satisfies the max-count / lexicographic-tie-break characterization. -/
theorem mainSubfieldFor_spec_witness :
    isDominant (countsFor exCache 2021 Mode.entire) (mainSubfieldFor exCache 2021 Mode.entire) :=
  (mainSubfieldFor_spec exCache 2021 Mode.entire).1 (by decide)

theorem posValues_mem_pos (c : Counts) (v : Nat) (hv : v ∈ posValues c) : 0 < v := by
  have := (List.mem_filter.mp hv).2
  simpa using this

theorem posValues_eq_nil_of_zero (c : Counts) (hz : ∀ p ∈ c, p.2 = 0) :
    posValues c = [] := by
  unfold posValues
  rw [List.filter_eq_nil_iff]
  intro v hv
  rcases List.mem_map.mp hv with ⟨p, hp, hpv⟩
  simp [← hpv, hz p hp]

theorem interFromValues_range (l : List Nat) (hpos : ∀ v ∈ l, 0 < v) :
    0 ≤ interFromValues l ∧ interFromValues l < 1 := by
  cases l with
  | nil =>
    constructor <;> norm_num [interFromValues]
  | cons v vs =>
    have hM_mem : vs.foldl max v ∈ v :: vs := by
      rcases foldl_max_mem vs v with h | h
      · rw [h]
        exact List.mem_cons_self v vs
      · exact List.mem_cons_of_mem v h
    have hMpos : 0 < vs.foldl max v :=
      lt_of_lt_of_le (hpos v (List.mem_cons_self v vs)) (foldl_max_le vs v)
    have hMS : vs.foldl max v ≤ (v :: vs).sum :=
      List.single_le_sum (fun x _ => Nat.zero_le x) _ hM_mem
    have hSpos : 0 < (v :: vs).sum := lt_of_lt_of_le hMpos hMS
    unfold interFromValues
    constructor
    · have hdiv : ((vs.foldl max v : Nat) : ℚ) / (((v :: vs).sum : Nat) : ℚ) ≤ 1 := by
        rw [div_le_one (by exact_mod_cast hSpos)]
        exact_mod_cast hMS
      linarith
    · have hdiv : 0 < ((vs.foldl max v : Nat) : ℚ) / (((v :: vs).sum : Nat) : ℚ) :=
        div_pos (by exact_mod_cast hMpos) (by exact_mod_cast hSpos)
      linarith

theorem posValues_cons (q : String × Nat) (rest : Counts) :
    posValues (q :: rest)
      = if 0 < q.2 then q.2 :: posValues rest else posValues rest := by
  by_cases h : 0 < q.2 <;> simp [posValues, List.filter_cons, h]

theorem posValues_single (c : Counts) (s : String)
    (hnd : (c.map Prod.fst).Nodup)
    (hone : ∀ p ∈ c, 0 < p.2 → p.1 = s)
    (hex : ∃ p ∈ c, 0 < p.2) :
    ∃ v, 0 < v ∧ posValues c = [v] := by
  induction c with
  | nil => simp at hex
  | cons q rest ih =>
    simp only [List.map_cons, List.nodup_cons] at hnd
    by_cases hq : 0 < q.2
    · have hqs : q.1 = s := hone q (List.mem_cons_self q rest) hq
      have hz : ∀ p ∈ rest, p.2 = 0 := by
        intro p hp
        by_contra hnz
        have hppos : 0 < p.2 := Nat.pos_of_ne_zero hnz
        have hps : p.1 = s := hone p (List.mem_cons_of_mem q hp) hppos
        have : q.1 ∈ rest.map Prod.fst := by
          rw [hqs, ← hps]
          exact List.mem_map_of_mem Prod.fst hp
        exact hnd.1 this
      refine ⟨q.2, hq, ?_⟩
      rw [posValues_cons, if_pos hq, posValues_eq_nil_of_zero rest hz]
    · have hex2 : ∃ p ∈ rest, 0 < p.2 := by
        rcases hex with ⟨p, hp, hpos⟩
        rcases List.mem_cons.mp hp with he | hm
        · exact absurd (he ▸ hpos) hq
        · exact ⟨p, hm, hpos⟩
      obtain ⟨v, hv, hpv⟩ :=
        ih hnd.2 (fun p hp hpos => hone p (List.mem_cons_of_mem q hp) hpos) hex2
      refine ⟨v, hv, ?_⟩
      rw [posValues_cons, if_neg hq, hpv]

/-- Claim C3: `interdisciplinarity` always lies in `[0, 1)`; it is exactly `0`
when the `countsFor` mapping is empty or all counts are zero; whenever some
count is positive it equals `1 − (max positive count) / (sum of positive
counts)`; and it is exactly `0` for an author whose positive activity lies in
a single category. -/
theorem interdisciplinarity_spec (cache : AuthorCache) (year : Int) (mode : Mode) :
    (0 ≤ interdisciplinarity cache year mode ∧ interdisciplinarity cache year mode < 1)
    ∧ ((∀ p ∈ countsFor cache year mode, p.2 = 0) →
        interdisciplinarity cache year mode = 0)
    ∧ ((∃ p ∈ countsFor cache year mode, 0 < p.2) →
        interdisciplinarity cache year mode
          = 1 - (maxPos (countsFor cache year mode) : ℚ)
              / (sumPos (countsFor cache year mode) : ℚ))
    ∧ (∀ s : String, ((countsFor cache year mode).map Prod.fst).Nodup →
        (∃ p ∈ countsFor cache year mode, 0 < p.2) →
        (∀ p ∈ countsFor cache year mode, 0 < p.2 → p.1 = s) →
        interdisciplinarity cache year mode = 0) := by
  refine ⟨?_, ?_, ?_, ?_⟩
  · exact interFromValues_range _ (fun v hv => posValues_mem_pos _ v hv)
  · intro hz
    unfold interdisciplinarity
    rw [posValues_eq_nil_of_zero _ hz]
    rfl
  · intro hex
    have hnonnil : posValues (countsFor cache year mode) ≠ [] := by
      rcases hex with ⟨p, hp, hpos⟩
      intro hnil
      have hmem : p.2 ∈ posValues (countsFor cache year mode) :=
        List.mem_filter.mpr ⟨List.mem_map_of_mem Prod.snd hp, by simpa using hpos⟩
      rw [hnil] at hmem
      simp at hmem
    cases hpv : posValues (countsFor cache year mode) with
    | nil => exact absurd hpv hnonnil
    | cons v vs =>
      unfold interdisciplinarity maxPos sumPos
      rw [hpv]
      rfl
  · intro s hnd hex hone
    obtain ⟨v, hv, hpv⟩ := posValues_single _ s hnd hone hex
    unfold interdisciplinarity
    rw [hpv]
    have hvq : ((v : Nat) : ℚ) ≠ 0 := by
      exact_mod_cast Nat.pos_iff_ne_zero.mp hv
    simp [interFromValues, div_self hvq]

/-- Witness for C3: on the spec's round-trip example in `'entire'` mode at
2021 (counts `{AI: 5, Software: 5}`), the metric equals the `1 − max/sum`
formula over positive counts. -/
theorem interdisciplinarity_spec_witness :
    interdisciplinarity exCache 2021 Mode.entire
      = 1 - (maxPos (countsFor exCache 2021 Mode.entire) : ℚ)
          / (sumPos (countsFor exCache 2021 Mode.entire) : ℚ) :=
  (interdisciplinarity_spec exCache 2021 Mode.entire).2.2.1 (by decide)

theorem setKey_not_mem (m : Counts) (k : String) (v : Nat)
    (h : k ∉ m.map Prod.fst) : setKey m k v = m ++ [(k, v)] := by
  induction m with
  | nil => rfl
  | cons p rest ih =>
    simp only [List.map_cons, List.mem_cons] at h
    push_neg at h
    have hpk : ¬ p.1 = k := fun hk => h.1 hk.symm
    simp [setKey, hpk, ih h.2]

theorem addCounts_of_disjoint (c : Counts) (m : Counts)
    (hnd : (c.map Prod.fst).Nodup) (hdisj : ∀ p ∈ c, p.1 ∉ m.map Prod.fst) :
    addCounts m c = m ++ c := by
  induction c generalizing m with
  | nil => simp [addCounts]
  | cons q rest ih =>
    simp only [List.map_cons, List.nodup_cons] at hnd
    have hq : q.1 ∉ m.map Prod.fst := hdisj q (List.mem_cons_self q rest)
    have hbump : bump m q.1 q.2 = m ++ [(q.1, q.2)] := by
      unfold bump
      rw [getCount_eq_zero_of_not_mem m q.1 hq, Nat.zero_add]
      exact setKey_not_mem m q.1 q.2 hq
    show addCounts (bump m q.1 q.2) rest = m ++ q :: rest
    rw [hbump]
    rw [ih (m ++ [(q.1, q.2)]) hnd.2 ?hdisj]
    · simp
    case hdisj =>
      intro p hp
      simp only [List.map_append, List.mem_append, List.map_cons, List.map_nil]
      push_neg
      constructor
      · exact hdisj p (List.mem_cons_of_mem q hp)
      · intro hc
        simp only [List.mem_cons, List.not_mem_nil, or_false] at hc
        exact hnd.1 (hc ▸ List.mem_map_of_mem Prod.fst hp)

theorem groupAgg_singleton (a : Author) (year : Int) (mode : Mode) (ft : FieldType)
    (h : ((countsByFieldType a year mode ft).map Prod.fst).Nodup) :
    groupAgg [a] year mode ft = countsByFieldType a year mode ft := by
  show addCounts [] (countsByFieldType a year mode ft) = _
  rw [addCounts_of_disjoint _ _ h (by intro p hp; simp)]
  simp

/-- Claim C8: group interdisciplinarity of a one-author population with
`fieldType = 'subfield'` equals that author's individual interdisciplinarity
at the same year and mode (aggregate-then-apply coincides with the individual
metric for a singleton).  The hypothesis is the JS-object invariant that the
author's category keys are unique. -/
theorem groupInterdisciplinarity_singleton (a : Author) (year : Int) (mode : Mode)
    (h : ((countsFor a.cache year mode).map Prod.fst).Nodup) :
    groupInterdisciplinarity [a] year mode FieldType.subfield
      = interdisciplinarity a.cache year mode := by
  unfold groupInterdisciplinarity interdisciplinarity
  rw [groupAgg_singleton a year mode FieldType.subfield h]
  rfl

/-- Witness for C8 on a concrete author built from the example table. -/
theorem groupInterdisciplinarity_singleton_witness :
    groupInterdisciplinarity
        [⟨"Ada Lovelace", "Lovelace", "Cambridge", some 10, some 5, some 20,
          some 100, exCache, []⟩] 2021 Mode.entire FieldType.subfield
      = interdisciplinarity exCache 2021 Mode.entire :=
  groupInterdisciplinarity_singleton
    ⟨"Ada Lovelace", "Lovelace", "Cambridge", some 10, some 5, some 20,
      some 100, exCache, []⟩ 2021 Mode.entire (by decide)

/-- Claim C10: for the empty population, and for any population whose
aggregated category counts are all zero (or absent), `groupInterdisciplinarity`
returns exactly `0` for either `fieldType`, never an error. -/
theorem groupInterdisciplinarity_zero (authors : List Author) (year : Int)
    (mode : Mode) (ft : FieldType)
    (h : authors = [] ∨ ∀ p ∈ groupAgg authors year mode ft, p.2 = 0) :
    groupInterdisciplinarity authors year mode ft = 0 := by
  have hz : ∀ p ∈ groupAgg authors year mode ft, p.2 = 0 := by
    rcases h with h | h
    · subst h
      intro p hp
      simp [groupAgg] at hp
    · exact h
  unfold groupInterdisciplinarity
  rw [posValues_eq_nil_of_zero _ hz]
  rfl

/-- Witness for C10: the empty population, both selectors behave identically;
shown here for the field-pair selector. -/
theorem groupInterdisciplinarity_zero_witness :
    groupInterdisciplinarity [] 2020 Mode.year FieldType.external = 0 :=
  groupInterdisciplinarity_zero [] 2020 Mode.year FieldType.external (Or.inl rfl)

theorem mem_insertSet (s : List String) (y x : String) :
    x ∈ insertSet s y ↔ x ∈ s ∨ x = y := by
  unfold insertSet
  split
  · next h =>
    constructor
    · exact Or.inl
    · rintro (hx | hx)
      · exact hx
      · exact hx ▸ h
  · next h =>
    simp [List.mem_append]

theorem mem_foldl_insertStep (c : Counts) (s : List String) (x : String) :
    x ∈ c.foldl (fun s2 p => if 0 < p.2 then insertSet s2 p.1 else s2) s
      ↔ x ∈ s ∨ ∃ p ∈ c, p.1 = x ∧ 0 < p.2 := by
  induction c generalizing s with
  | nil => simp
  | cons q rest ih =>
    rw [List.foldl_cons, ih]
    by_cases hq : 0 < q.2
    · rw [if_pos hq, mem_insertSet, List.exists_mem_cons_iff]
      constructor
      · rintro ((hs | hx) | hex)
        · exact Or.inl hs
        · exact Or.inr (Or.inl ⟨hx.symm, hq⟩)
        · exact Or.inr (Or.inr hex)
      · rintro (hs | (⟨hx, _⟩ | hex))
        · exact Or.inl (Or.inl hs)
        · exact Or.inl (Or.inr hx.symm)
        · exact Or.inr hex
    · rw [if_neg hq, List.exists_mem_cons_iff]
      constructor
      · rintro (hs | hex)
        · exact Or.inl hs
        · exact Or.inr (Or.inr hex)
      · rintro (hs | (⟨hx, hpos⟩ | hex))
        · exact Or.inl hs
        · exact absurd hpos hq
        · exact Or.inr hex

theorem mem_presentFold (year : Int) (mode : Mode) (authors : List Author)
    (s : List String) (x : String) :
    x ∈ authors.foldl
        (fun s2 a =>
          (countsFor a.cache year mode).foldl
            (fun s3 p => if 0 < p.2 then insertSet s3 p.1 else s3) s2) s
      ↔ x ∈ s ∨ ∃ a ∈ authors, ∃ p ∈ countsFor a.cache year mode, p.1 = x ∧ 0 < p.2 := by
  induction authors generalizing s with
  | nil => simp
  | cons a rest ih =>
    rw [List.foldl_cons, ih, mem_foldl_insertStep, List.exists_mem_cons_iff]
    constructor
    · rintro ((hs | hex) | hex2)
      · exact Or.inl hs
      · exact Or.inr (Or.inl hex)
      · exact Or.inr (Or.inr hex2)
    · rintro (hs | (hex | hex2))
      · exact Or.inl (Or.inl hs)
      · exact Or.inl (Or.inr hex)
      · exact Or.inr hex2

theorem mem_presentSubfields (authors : List Author) (year : Int) (mode : Mode)
    (x : String) :
    x ∈ presentSubfields authors year mode
      ↔ ∃ a ∈ authors, ∃ p ∈ countsFor a.cache year mode, p.1 = x ∧ 0 < p.2 := by
  have h := mem_presentFold year mode authors [] x
  simpa [presentSubfields] using h

theorem insertSet_nodup (s : List String) (x : String) (h : s.Nodup) :
    (insertSet s x).Nodup := by
  unfold insertSet
  split
  · exact h
  · next hx =>
    refine List.Nodup.append h (List.nodup_singleton x) ?_
    intro a ha hax
    rw [List.mem_singleton] at hax
    exact hx (hax ▸ ha)

theorem foldl_insertStep_nodup (c : Counts) (s : List String) (h : s.Nodup) :
    (c.foldl (fun s2 p => if 0 < p.2 then insertSet s2 p.1 else s2) s).Nodup := by
  induction c generalizing s with
  | nil => exact h
  | cons q rest ih =>
    rw [List.foldl_cons]
    by_cases hq : 0 < q.2
    · rw [if_pos hq]
      exact ih _ (insertSet_nodup s q.1 h)
    · rw [if_neg hq]
      exact ih _ h

theorem presentFold_nodup (year : Int) (mode : Mode) (authors : List Author)
    (s : List String) (h : s.Nodup) :
    (authors.foldl
        (fun s2 a =>
          (countsFor a.cache year mode).foldl
            (fun s3 p => if 0 < p.2 then insertSet s3 p.1 else s3) s2) s).Nodup := by
  induction authors generalizing s with
  | nil => exact h
  | cons a rest ih =>
    rw [List.foldl_cons]
    exact ih _ (foldl_insertStep_nodup _ _ h)

theorem computeVisibleSubfields_nodup (authors : List Author) (year : Int)
    (mode : Mode) : (computeVisibleSubfields authors year mode).Nodup :=
  (List.perm_insertionSort _ _).nodup_iff.mpr
    (presentFold_nodup year mode authors [] List.nodup_nil)

theorem visibleWithFallback_nodup (authors : List Author) (year : Int)
    (mode : Mode) : (visibleWithFallback authors year mode).Nodup := by
  unfold visibleWithFallback
  split
  · exact List.nodup_singleton _
  · exact computeVisibleSubfields_nodup authors year mode

theorem lookupKey_enum_map {β : Type} (f : Nat → β) (v : List String)
    (hnd : v.Nodup) (i : Nat) (hi : i < v.length) (n : Nat) :
    lookupKey ((v.enumFrom n).map (fun p => (p.2, f p.1))) (v.getD i "")
      = some (f (n + i)) := by
  induction v generalizing n i with
  | nil => simp at hi
  | cons a rest ih =>
    rw [List.nodup_cons] at hnd
    cases i with
    | zero =>
      simp [List.enumFrom, lookupKey]
    | succ j =>
      have hj : j < rest.length := by simpa using hi
      have hmem : rest.getD j "" ∈ rest := by
        rw [List.getD_eq_getElem rest "" hj]
        exact List.getElem_mem hj
      have hne : ¬ a = rest.getD j "" := fun he => hnd.1 (he ▸ hmem)
      have hgd : (a :: rest).getD (j + 1) "" = rest.getD j "" := by
        simp [List.getD_cons_succ]
      have hstep : lookupKey
          (((a :: rest).enumFrom n).map (fun p => (p.2, f p.1))) (rest.getD j "")
          = if a = rest.getD j "" then some (f n)
            else lookupKey ((rest.enumFrom (n + 1)).map (fun p => (p.2, f p.1)))
              (rest.getD j "") := rfl
      have harith : n + 1 + j = n + (j + 1) := by omega
      rw [hgd, hstep, if_neg hne, ih hnd.2 j hj (n + 1), harith]

/-- Claim C4: the visible-subfield set is exactly the set of subfields with a
strictly positive `countsFor` count for some author of the population; the
layout list is never empty and is exactly `["Unknown"]` when no subfield
qualifies; it is sorted by subfield name; and the cluster-center map places
the `i`-th visible subfield at angle `(i / N) * 2π − π/2` on the fixed-radius
circle, `N` being the number of slots. -/
theorem clusterLayout_spec (cx cy r : ℝ) (authors : List Author) (year : Int)
    (mode : Mode) :
    (∀ sf : String, sf ∈ computeVisibleSubfields authors year mode
        ↔ ∃ a ∈ authors, ∃ p ∈ countsFor a.cache year mode, p.1 = sf ∧ 0 < p.2)
    ∧ visibleWithFallback authors year mode ≠ []
    ∧ (computeVisibleSubfields authors year mode = []
        → visibleWithFallback authors year mode = ["Unknown"])
    ∧ List.Sorted (fun a b : String => a ≤ b) (visibleWithFallback authors year mode)
    ∧ (∀ i, i < (visibleWithFallback authors year mode).length →
        lookupKey (clusterCenterMap cx cy r authors year mode)
            ((visibleWithFallback authors year mode).getD i "")
          = some
              ⟨cx + r * Real.cos (slotAngle i (visibleWithFallback authors year mode).length),
               cy + r * Real.sin (slotAngle i (visibleWithFallback authors year mode).length),
               slotAngle i (visibleWithFallback authors year mode).length⟩) := by
  refine ⟨?_, ?_, ?_, ?_, ?_⟩
  · intro sf
    unfold computeVisibleSubfields
    rw [(List.perm_insertionSort (fun a b : String => a ≤ b)
      (presentSubfields authors year mode)).mem_iff]
    exact mem_presentSubfields authors year mode sf
  · unfold visibleWithFallback
    split
    · simp
    · next h => exact h
  · intro h
    unfold visibleWithFallback
    rw [if_pos h]
  · unfold visibleWithFallback
    split
    · simp
    · exact List.sorted_insertionSort _ _
  · intro i hi
    have h := lookupKey_enum_map
      (fun j => (⟨cx + r * Real.cos (slotAngle j (visibleWithFallback authors year mode).length),
                  cy + r * Real.sin (slotAngle j (visibleWithFallback authors year mode).length),
                  slotAngle j (visibleWithFallback authors year mode).length⟩ : Center ℝ))
      (visibleWithFallback authors year mode)
      (visibleWithFallback_nodup authors year mode) i hi 0
    rw [Nat.zero_add] at h
    exact h

/-- Witness for C4: with no authors no subfield qualifies, and the layout
substitutes exactly the `"Unknown"` singleton. -/
theorem clusterLayout_spec_witness :
    visibleWithFallback [] 2020 Mode.year = ["Unknown"] :=
  (clusterLayout_spec 0 0 1 [] 2020 Mode.year).2.2.1 rfl

theorem mem_phantomsForNode {β : Type} (centers : List (String × Center β))
    (year : Int) (mode : Mode) (n : Author) (e : Phantom β) :
    e ∈ phantomsForNode centers year mode n
      ↔ isActiveBy n.cache year mode = true
        ∧ ∃ p ∈ countsFor n.cache year mode, ∃ c : Center β,
            0 < p.2 ∧ p.1 ≠ mainSubfieldFor n.cache year mode
            ∧ lookupKey centers p.1 = some c
            ∧ e = ⟨n, p.1, p.2, c.x, c.y⟩ := by
  unfold phantomsForNode
  by_cases hact : isActiveBy n.cache year mode
  · rw [if_pos hact, List.mem_filterMap]
    constructor
    · rintro ⟨p, hp, hf⟩
      refine ⟨hact, p, hp, ?_⟩
      by_cases hc : 0 < p.2 ∧ p.1 ≠ mainSubfieldFor n.cache year mode
      · rw [if_pos hc] at hf
        cases hl : lookupKey centers p.1 with
        | none =>
          rw [hl] at hf
          simp at hf
        | some c =>
          rw [hl] at hf
          simp at hf
          exact ⟨c, hc.1, hc.2, rfl, hf.symm⟩
      · rw [if_neg hc] at hf
        simp at hf
    · rintro ⟨_, p, hp, c, hpos, hne, hl, he⟩
      exact ⟨p, hp, by rw [if_pos ⟨hpos, hne⟩, hl, he]⟩
  · rw [if_neg hact]
    constructor
    · intro h
      simp at h
    · rintro ⟨hact2, _⟩
      exact absurd hact2 hact

theorem phantomsForNode_parent {β : Type} (centers : List (String × Center β))
    (year : Int) (mode : Mode) (n2 : Author) (e : Phantom β)
    (he : e ∈ phantomsForNode centers year mode n2) : e.parent = n2 := by
  rcases (mem_phantomsForNode centers year mode n2 e).mp he with
    ⟨_, p, _, c, _, _, _, he2⟩
  rw [he2]

theorem countP_flatMap {α γ : Type} (l : List α) (f : α → List γ) (p : γ → Bool) :
    (l.flatMap f).countP p = (l.map (fun a => (f a).countP p)).sum := by
  induction l with
  | nil => rfl
  | cons a rest ih =>
    rw [List.flatMap_cons, List.countP_append, ih]
    simp

theorem countP_filterMap {α γ : Type} (l : List α) (f : α → Option γ)
    (p : γ → Bool) :
    (l.filterMap f).countP p = l.countP (fun a => ((f a).map p).getD false) := by
  induction l with
  | nil => rfl
  | cons a rest ih =>
    rw [List.filterMap_cons]
    cases hf : f a with
    | none => simp [List.countP_cons, hf, ih]
    | some c => simp [List.countP_cons, hf, ih]

theorem countP_eq_zero_of_key_absent (c : Counts) (sf : String)
    (g : String × Nat → Bool) (hg : ∀ p, g p = true → p.1 = sf)
    (habs : sf ∉ c.map Prod.fst) : c.countP g = 0 := by
  rw [List.countP_eq_zero]
  intro p hp hgp
  exact habs ((hg p hgp) ▸ List.mem_map_of_mem Prod.fst hp)

theorem countP_key_unique (c : Counts) (sf : String)
    (hnd : (c.map Prod.fst).Nodup) (g : String × Nat → Bool)
    (hg : ∀ p, g p = true → p.1 = sf)
    (p0 : String × Nat) (hp0 : p0 ∈ c) (hkey : p0.1 = sf) (hgp : g p0 = true) :
    c.countP g = 1 := by
  induction c with
  | nil => simp at hp0
  | cons q rest ih =>
    simp only [List.map_cons, List.nodup_cons] at hnd
    by_cases hq : q.1 = sf
    · have habs : sf ∉ rest.map Prod.fst := hq ▸ hnd.1
      have hp0q : p0 = q := by
        rcases List.mem_cons.mp hp0 with h | h
        · exact h
        · exact absurd (hkey ▸ List.mem_map_of_mem Prod.fst h) habs
      rw [List.countP_cons, countP_eq_zero_of_key_absent rest sf g hg habs,
        ← hp0q, if_pos hgp]
    · have hp0r : p0 ∈ rest := by
        rcases List.mem_cons.mp hp0 with h | h
        · exact absurd (h ▸ hkey) hq
        · exact h
      have hgq : ¬ g q = true := fun hgq => hq (hg q hgq)
      rw [List.countP_cons, if_neg hgq, ih hnd.2 hp0r]

theorem sum_countP_single {α γ : Type} (f : α → List γ) (pred : γ → Bool)
    (nodes : List α) (hnd : nodes.Nodup) (n : α) (hn : n ∈ nodes)
    (hval : (f n).countP pred = 1)
    (hother : ∀ n2, n2 ≠ n → (f n2).countP pred = 0) :
    (nodes.map (fun a => (f a).countP pred)).sum = 1 := by
  induction nodes with
  | nil => simp at hn
  | cons a rest ih =>
    rw [List.nodup_cons] at hnd
    rcases List.mem_cons.mp hn with h | h
    · subst h
      have hz : (rest.map (fun a2 => (f a2).countP pred)).sum = 0 := by
        apply List.sum_eq_zero
        intro x hx
        rcases List.mem_map.mp hx with ⟨a2, ha2, hax⟩
        rw [← hax]
        exact hother a2 (fun he => hnd.1 (he ▸ ha2))
      rw [List.map_cons, List.sum_cons, hval, hz]
    · have hz : (f a).countP pred = 0 := by
        apply hother a
        intro he
        exact hnd.1 (he.symm ▸ h)
      rw [List.map_cons, List.sum_cons, hz, ih hnd.2 h]

/-- Claim C5: every emitted phantom edge belongs to an active node of the
current node list, carries a strictly positive count for a category distinct
from the node's dominant subfield, and references a subfield present in the
cluster-center map; conversely every qualifying (node, category) pair emits
its edge; and — under the JS invariants that nodes are distinct and each
`countsFor` object has unique keys — each qualifying pair emits exactly one
edge. -/
theorem phantoms_spec {β : Type} (nodes : List Author)
    (centers : List (String × Center β)) (year : Int) (mode : Mode) :
    (∀ e ∈ computePhantomsForYear nodes centers year mode,
        e.parent ∈ nodes
        ∧ isActiveBy e.parent.cache year mode = true
        ∧ 0 < e.count
        ∧ e.subfield ≠ mainSubfieldFor e.parent.cache year mode
        ∧ (lookupKey centers e.subfield).isSome = true)
    ∧ (∀ n ∈ nodes, ∀ p ∈ countsFor n.cache year mode, ∀ c : Center β,
        isActiveBy n.cache year mode = true → 0 < p.2 →
        p.1 ≠ mainSubfieldFor n.cache year mode →
        lookupKey centers p.1 = some c →
        (⟨n, p.1, p.2, c.x, c.y⟩ : Phantom β)
          ∈ computePhantomsForYear nodes centers year mode)
    ∧ (nodes.Nodup →
        (∀ n ∈ nodes, ((countsFor n.cache year mode).map Prod.fst).Nodup) →
        ∀ n ∈ nodes, ∀ sf : String,
          isActiveBy n.cache year mode = true →
          (∃ p ∈ countsFor n.cache year mode, p.1 = sf ∧ 0 < p.2) →
          sf ≠ mainSubfieldFor n.cache year mode →
          (lookupKey centers sf).isSome = true →
          (computePhantomsForYear nodes centers year mode).countP
              (fun e => decide (e.parent = n) && decide (e.subfield = sf)) = 1) := by
  refine ⟨?_, ?_, ?_⟩
  · intro e he
    rcases List.mem_flatMap.mp he with ⟨n, hn, hen⟩
    rcases (mem_phantomsForNode centers year mode n e).mp hen with
      ⟨hact, p, hp, c, hpos, hne, hl, he2⟩
    subst he2
    refine ⟨hn, hact, hpos, hne, ?_⟩
    show (lookupKey centers p.1).isSome = true
    rw [hl]
    rfl
  · intro n hn p hp c hact hpos hne hl
    exact List.mem_flatMap.mpr
      ⟨n, hn, (mem_phantomsForNode centers year mode n _).mpr
        ⟨hact, p, hp, c, hpos, hne, hl, rfl⟩⟩
  · intro hnodes hinner n hn sf hact hex hne hsome
    unfold computePhantomsForYear
    rw [countP_flatMap]
    rcases hex with ⟨p0, hp0, hkey, hpos⟩
    rcases Option.isSome_iff_exists.mp hsome with ⟨c0, hc0⟩
    have hval : (phantomsForNode centers year mode n).countP
        (fun e => decide (e.parent = n) && decide (e.subfield = sf)) = 1 := by
      unfold phantomsForNode
      rw [if_pos hact, countP_filterMap]
      apply countP_key_unique (countsFor n.cache year mode) sf (hinner n hn) _ ?hg
        p0 hp0 hkey ?hgp
      case hg =>
        intro p hgp2
        by_cases hc : 0 < p.2 ∧ p.1 ≠ mainSubfieldFor n.cache year mode
        · rw [if_pos hc] at hgp2
          cases hl : lookupKey centers p.1 with
          | none =>
            rw [hl] at hgp2
            simp at hgp2
          | some c =>
            rw [hl] at hgp2
            simp at hgp2
            exact hgp2
        · rw [if_neg hc] at hgp2
          simp at hgp2
      case hgp =>
        have hne0 : p0.1 ≠ mainSubfieldFor n.cache year mode := hkey ▸ hne
        rw [if_pos ⟨hpos, hne0⟩, hkey, hc0]
        simp [hkey]
    have hother : ∀ n2 : Author, n2 ≠ n →
        (phantomsForNode centers year mode n2).countP
          (fun e => decide (e.parent = n) && decide (e.subfield = sf)) = 0 := by
      intro n2 hne2
      rw [List.countP_eq_zero]
      intro e he
      have hpar : e.parent = n2 := phantomsForNode_parent centers year mode n2 e he
      simp [hpar, hne2]
    exact sum_countP_single _ _ nodes hnodes n hn hval hother

/-- Witness for C5: for a node dominant in `"AI"` with a secondary positive
`"Software"` count and a `"Software"` cluster center at `(1, 2)`, the phantom
edge is emitted. -/
theorem phantoms_spec_witness :
    (⟨phAuthor, "Software", 1, 1, 2⟩ : Phantom ℚ)
      ∈ computePhantomsForYear [phAuthor] phCenters 2020 Mode.year :=
  (phantoms_spec [phAuthor] phCenters 2020 Mode.year).2.1 phAuthor (by decide)
    ("Software", 1) (by decide) ⟨1, 2, 0⟩ (by decide) (by decide) (by decide)
    (by decide)

theorem computePhantoms_count_pos {β : Type} (nodes : List Author)
    (centers : List (String × Center β)) (year : Int) (mode : Mode) :
    ∀ e ∈ computePhantomsForYear nodes centers year mode, 0 < e.count := by
  intro e he
  rcases List.mem_flatMap.mp he with ⟨n, hn, hen⟩
  rcases (mem_phantomsForNode centers year mode n e).mp hen with
    ⟨_, p, _, c, hpos, _, _, he2⟩
  rw [he2]
  exact hpos

theorem count_le_maxCountOf {β : Type} (ph : List (Phantom β)) (e : Phantom β)
    (he : e ∈ ph) : e.count ≤ maxCountOf ph := by
  cases ph with
  | nil => simp at he
  | cons e0 rest =>
    show e.count ≤ (rest.map (fun x => x.count)).foldl max e0.count
    rcases List.mem_cons.mp he with h | h
    · rw [h]
      exact foldl_max_le _ _
    · exact le_foldl_max_of_mem _ _ _ (List.mem_map_of_mem (fun x => x.count) h)

theorem maxCountOf_pos {β : Type} (ph : List (Phantom β)) (hne : ph ≠ [])
    (hpos : ∀ e ∈ ph, 0 < e.count) : 0 < maxCountOf ph := by
  cases ph with
  | nil => exact absurd rfl hne
  | cons e0 rest =>
    exact lt_of_lt_of_le (hpos e0 (List.mem_cons_self e0 rest))
      (count_le_maxCountOf (e0 :: rest) e0 (List.mem_cons_self e0 rest))

/-- Claim C6: for a non-empty phantom set, each edge's opacity is the linear
map of its count from `[0, maxCount]` to `[0.01, 0.30]`: affine in the count,
`0.01` at count 0, exactly `0.30` for an edge attaining the frame maximum,
always within `[0.01, 0.30]`; and the scaling is relative to the current
frame — the same count yields a different opacity against any phantom set
whose (positive) maximum differs. -/
theorem phantomOpacity_spec {β : Type} (nodes : List Author)
    (centers : List (String × Center β)) (year : Int) (mode : Mode)
    (hne : computePhantomsForYear nodes centers year mode ≠ []) :
    (∀ e ∈ computePhantomsForYear nodes centers year mode,
        opacityFor (computePhantomsForYear nodes centers year mode) e.count
          = 1 / 100
            + (e.count : ℚ)
              * ((30 / 100 - 1 / 100)
                / (maxCountOf (computePhantomsForYear nodes centers year mode) : ℚ)))
    ∧ opacityFor (computePhantomsForYear nodes centers year mode) 0 = 1 / 100
    ∧ (∀ e ∈ computePhantomsForYear nodes centers year mode,
        e.count = maxCountOf (computePhantomsForYear nodes centers year mode) →
        opacityFor (computePhantomsForYear nodes centers year mode) e.count
          = 30 / 100)
    ∧ (∀ e ∈ computePhantomsForYear nodes centers year mode,
        1 / 100 ≤ opacityFor (computePhantomsForYear nodes centers year mode) e.count
        ∧ opacityFor (computePhantomsForYear nodes centers year mode) e.count
            ≤ 30 / 100)
    ∧ (∀ ph2 : List (Phantom β), ∀ e ∈ computePhantomsForYear nodes centers year mode,
        0 < maxCountOf ph2 →
        maxCountOf ph2 ≠ maxCountOf (computePhantomsForYear nodes centers year mode) →
        opacityFor ph2 e.count
          ≠ opacityFor (computePhantomsForYear nodes centers year mode) e.count) := by
  have hM : 0 < maxCountOf (computePhantomsForYear nodes centers year mode) :=
    maxCountOf_pos _ hne (computePhantoms_count_pos nodes centers year mode)
  have hMq : (0 : ℚ) < (maxCountOf (computePhantomsForYear nodes centers year mode) : ℚ) := by
    exact_mod_cast hM
  refine ⟨?_, ?_, ?_, ?_, ?_⟩
  · intro e _
    unfold opacityFor
    ring
  · unfold opacityFor
    norm_num
  · intro e _ hc
    unfold opacityFor
    rw [hc, div_self (ne_of_gt hMq)]
    norm_num
  · intro e he
    have h0 : (0 : ℚ) ≤ (e.count : ℚ) / (maxCountOf (computePhantomsForYear nodes centers year mode) : ℚ) :=
      div_nonneg (Nat.cast_nonneg _) (le_of_lt hMq)
    have h1 : (e.count : ℚ) / (maxCountOf (computePhantomsForYear nodes centers year mode) : ℚ) ≤ 1 := by
      rw [div_le_one hMq]
      exact_mod_cast count_le_maxCountOf _ e he
    unfold opacityFor
    constructor
    · nlinarith
    · nlinarith
  · intro ph2 e he hpos2 hneq heq
    have hc : 0 < e.count := computePhantoms_count_pos nodes centers year mode e he
    have hcq : (0 : ℚ) < (e.count : ℚ) := by exact_mod_cast hc
    have hM2q : (0 : ℚ) < (maxCountOf ph2 : ℚ) := by exact_mod_cast hpos2
    unfold opacityFor at heq
    have h1 : ((e.count : ℚ) / (maxCountOf ph2 : ℚ)) * (30 / 100 - 1 / 100)
        = ((e.count : ℚ) / (maxCountOf (computePhantomsForYear nodes centers year mode) : ℚ))
          * (30 / 100 - 1 / 100) := by
      linarith
    have h29 : (30 / 100 - 1 / 100 : ℚ) ≠ 0 := by norm_num
    have h2 : (e.count : ℚ) / (maxCountOf ph2 : ℚ)
        = (e.count : ℚ) / (maxCountOf (computePhantomsForYear nodes centers year mode) : ℚ) :=
      mul_right_cancel₀ h29 h1
    rw [div_eq_div_iff (ne_of_gt hM2q) (ne_of_gt hMq)] at h2
    have h3 : (maxCountOf (computePhantomsForYear nodes centers year mode) : ℚ)
        = (maxCountOf ph2 : ℚ) :=
      mul_left_cancel₀ (ne_of_gt hcq) h2
    exact hneq (by exact_mod_cast h3.symm)

/-- Witness for C6: in the concrete one-edge frame the (maximal) count
receives exactly the top opacity `0.30`. -/
theorem phantomOpacity_spec_witness :
    opacityFor (computePhantomsForYear [phAuthor] phCenters 2020 Mode.year)
        (Phantom.mk phAuthor "Software" 1 (1 : ℚ) 2).count = 30 / 100 :=
  (phantomOpacity_spec [phAuthor] phCenters 2020 Mode.year (by decide)).2.2.1
    ⟨phAuthor, "Software", 1, 1, 2⟩ (by decide) (by decide)

theorem getCount_condBumpFold (c : Counts) (m : Counts) (k : String) :
    getCount (c.foldl (fun m2 p => if 0 < p.2 then bump m2 p.1 p.2 else m2) m) k
      = getCount m k + keySum c k := by
  induction c generalizing m with
  | nil => simp [keySum]
  | cons p rest ih =>
    rw [List.foldl_cons]
    by_cases hp : 0 < p.2
    · rw [if_pos hp, ih, getCount_bump]
      by_cases hk : p.1 = k
      · simp [keySum, hk]
        omega
      · simp [keySum, hk]
    · have hz : p.2 = 0 := Nat.eq_zero_of_not_pos hp
      rw [if_neg hp, ih]
      by_cases hk : p.1 = k <;> simp [keySum, hk, hz]

theorem getCount_pairTotalsFold (authors : List Author) (year : Int) (mode : Mode)
    (m : Counts) (k : String) :
    getCount
        (authors.foldl
          (fun m2 a =>
            (sankeyPairsFor a year mode).foldl
              (fun m3 p => if 0 < p.2 then bump m3 p.1 p.2 else m3) m2) m) k
      = getCount m k
        + (authors.map (fun a => keySum (sankeyPairsFor a year mode) k)).sum := by
  induction authors generalizing m with
  | nil => simp
  | cons a rest ih =>
    rw [List.foldl_cons, ih, getCount_condBumpFold]
    simp only [List.map_cons, List.sum_cons]
    omega

theorem mem_linksOf (totals : Counts) (s f : String) (c : Nat) :
    (s, f, c) ∈ linksOf totals
      ↔ ∃ p ∈ totals, p.2 = c
          ∧ headTwo (splitSep p.1.data) = some (s.data, f.data) := by
  unfold linksOf
  rw [List.mem_filterMap]
  constructor
  · rintro ⟨p, hp, hf⟩
    cases hh : headTwo (splitSep p.1.data) with
    | none =>
      rw [hh] at hf
      simp at hf
    | some sf2 =>
      obtain ⟨s2, f2⟩ := sf2
      rw [hh] at hf
      simp at hf
      refine ⟨p, hp, hf.2.2, ?_⟩
      rw [hh, ← hf.1, ← hf.2.1]
  · rintro ⟨p, hp, hc, hh⟩
    refine ⟨p, hp, ?_⟩
    rw [hh, hc]

theorem mem_nodesOfFold (links : List (String × String × Nat))
    (s0 : List String) (x : String) :
    x ∈ links.foldl (fun s l => insertSet (insertSet s l.1) l.2.1) s0
      ↔ x ∈ s0 ∨ ∃ l ∈ links, x = l.1 ∨ x = l.2.1 := by
  induction links generalizing s0 with
  | nil => simp
  | cons l rest ih =>
    rw [List.foldl_cons, ih, mem_insertSet, mem_insertSet, List.exists_mem_cons_iff]
    constructor
    · rintro (((hs | h1) | h2) | hex)
      · exact Or.inl hs
      · exact Or.inr (Or.inl (Or.inl h1))
      · exact Or.inr (Or.inl (Or.inr h2))
      · exact Or.inr (Or.inr hex)
    · rintro (hs | ((h1 | h2) | hex))
      · exact Or.inl (Or.inl (Or.inl hs))
      · exact Or.inl (Or.inl (Or.inr h1))
      · exact Or.inl (Or.inr h2)
      · exact Or.inr hex

/-- Claim C7: `pairTotals` sums each key's counts additively across the
population; each surviving key splits on `"---"` into a `(subfield, field)`
link carrying the aggregated count, keys with fewer than two parts being
dropped silently; the node set is exactly the subfield and field names of the
surviving links; and zero aggregate pairs produce the explicitly empty graph. -/
theorem updateSankey_spec (authors : List Author) (year : Int) (mode : Mode)
    (hinner : ∀ a ∈ authors, ((sankeyPairsFor a year mode).map Prod.fst).Nodup) :
    (∀ k : String, getCount (pairTotals authors year mode) k
        = (authors.map (fun a => getCount (sankeyPairsFor a year mode) k)).sum)
    ∧ (∀ s f : String, ∀ c : Nat,
        (s, f, c) ∈ (updateSankey authors year mode).links
          ↔ ∃ p ∈ pairTotals authors year mode,
              p.2 = c ∧ headTwo (splitSep p.1.data) = some (s.data, f.data))
    ∧ (∀ x : String, x ∈ (updateSankey authors year mode).nodes
        ↔ ∃ l ∈ (updateSankey authors year mode).links, x = l.1 ∨ x = l.2.1)
    ∧ (pairTotals authors year mode = [] →
        updateSankey authors year mode = emptyGraph) := by
  have hlinks_iff : ∀ s f : String, ∀ c : Nat,
      (s, f, c) ∈ linksOf (pairTotals authors year mode)
        ↔ ∃ p ∈ pairTotals authors year mode,
            p.2 = c ∧ headTwo (splitSep p.1.data) = some (s.data, f.data) :=
    fun s f c => mem_linksOf (pairTotals authors year mode) s f c
  refine ⟨?_, ?_, ?_, ?_⟩
  · intro k
    unfold pairTotals
    rw [getCount_pairTotalsFold,
      show getCount ([] : Counts) k = 0 from rfl, Nat.zero_add]
    apply sum_map_congr
    intro a ha
    exact keySum_eq_getCount _ _ (hinner a ha)
  · intro s f c
    unfold updateSankey
    by_cases h1 : pairTotals authors year mode = []
    · rw [if_pos h1]
      simp only [emptyGraph, List.not_mem_nil, false_iff]
      rintro ⟨p, hp, _⟩
      rw [h1] at hp
      simp at hp
    · rw [if_neg h1]
      by_cases h2 : linksOf (pairTotals authors year mode) = []
      · rw [if_pos h2]
        simp only [emptyGraph, List.not_mem_nil, false_iff]
        intro hex
        have := (hlinks_iff s f c).mpr hex
        rw [h2] at this
        simp at this
      · rw [if_neg h2]
        exact hlinks_iff s f c
  · intro x
    unfold updateSankey
    by_cases h1 : pairTotals authors year mode = []
    · rw [if_pos h1]
      simp [emptyGraph]
    · rw [if_neg h1]
      by_cases h2 : linksOf (pairTotals authors year mode) = []
      · rw [if_pos h2]
        simp [emptyGraph]
      · rw [if_neg h2]
        show x ∈ nodesOf (linksOf (pairTotals authors year mode)) ↔ _
        unfold nodesOf
        rw [mem_nodesOfFold]
        simp
  · intro h
    unfold updateSankey
    rw [if_pos h]

/-- Witness for C7: the spec's flow scenario yields the `("AI", "CS")` link of
weight 5. -/
theorem updateSankey_spec_witness :
    (("AI" : String), ("CS" : String), (5 : Nat))
      ∈ (updateSankey [skAuthor] 2020 Mode.year).links :=
  ((updateSankey_spec [skAuthor] 2020 Mode.year (by decide)).2.1 "AI" "CS" 5).mpr
    ⟨("AI---CS", 5), by decide, rfl, by decide⟩

/-- Claim C9: an author whose numeric metric is the `NaN` sentinel fails every
non-empty numeric filter on that metric, for each operator, and is therefore
excluded from the filtered population. -/
theorem nan_metric_rejected (s : FilterSettings) (authors : List Author) (a : Author)
    (h : (a.hindex = none ∧ s.hNum ≠ none)
        ∨ (a.i10index = none ∧ s.i10Num ≠ none)
        ∨ (a.works_count = none ∧ s.worksNum ≠ none)
        ∨ (a.cited_by_count = none ∧ s.citedNum ≠ none)) :
    authorPasses s a = false ∧ a ∉ applyFilters s authors := by
  have hnum : ∀ (op : NumOp) (numStr : Option (Option ℚ)), numStr ≠ none →
      numericCheck op (none : Option ℚ) numStr = false := by
    intro op numStr hns
    cases numStr with
    | none => exact absurd rfl hns
    | some num => cases op <;> cases num <;> rfl
  have hpass : authorPasses s a = false := by
    unfold authorPasses
    split
    · rfl
    · split
      · rfl
      · split
        · rfl
        · rcases h with ⟨hv, hn⟩ | ⟨hv, hn⟩ | ⟨hv, hn⟩ | ⟨hv, hn⟩
          · rw [hv, hnum s.hOp s.hNum hn]
            simp
          · rw [hv, hnum s.i10Op s.i10Num hn]
            simp
          · rw [hv, hnum s.worksOp s.worksNum hn]
            simp
          · rw [hv, hnum s.citedOp s.citedNum hn]
            simp
  refine ⟨hpass, ?_⟩
  intro hmem
  have hp := (List.mem_filter.mp hmem).2
  rw [hpass] at hp
  exact Bool.false_ne_true hp

/-- Witness for C9: a `NaN` h-index fails even the `>= 0` filter and the
author is dropped from the population. -/
theorem nan_metric_rejected_witness :
    authorPasses exFilter nanAuthor = false
    ∧ nanAuthor ∉ applyFilters exFilter [nanAuthor] :=
  nan_metric_rejected exFilter [nanAuthor] nanAuthor (Or.inl ⟨rfl, by decide⟩)

end SciViz
